import Mathlib

/-!
Verification development for the IPC bridge of the
VSCodeApiMcpHostExtension repository.

The embedded code comprises: the newline-delimited JSON framing layer and
connection loop of IPCServer.start, the IPCClient data handler,
IPCClient.request, IPCClient.disconnect and the close handler installed by
IPCClient.connect, the capability dispatcher handleVSCodeRequest, and the
extension-level lifecycle helpers startIPCServer / stopIPCServer /
startHttpServer / stopHttpServer.

Modelling conventions:
* JavaScript strings are lists of characters; byte buffers are lists of
  naturals (each below 256).
* Buffer.prototype.toString() as invoked on each received socket chunk
  performs UTF-8 decoding with U+FFFD replacement and without carrying
  decoder state between chunks; it is modelled by utf8LossyDecode, which
  follows the WHATWG decoding algorithm.
* JSON.parse and JSON.stringify are external builtins.  Parsing of a
  delimited line is therefore a parameter of type
  List Char -> Option (IPCRequest A) (respectively IPCResponse); the value
  none models a thrown parse error, and some models a successful parse of
  a well-formed message.  Messages travel at the value level.
* Promise resolution is modelled with Except String: the error case
  carries the human-readable message of the failure, matching the
  extraction performed by the server
  (error instanceof Error ? error.message : String(error)).
* Continuations stored in the pending-request map of IPCClient are
  identified by their key (the request id); firing a continuation is
  recorded as an emitted event naming that id.
-/

/-- A decoded IPC request, from interface IPCRequest of the bridge:
id, method and params fields.  The params payload type is a parameter. -/
structure IPCRequest (α : Type) where
  id : String
  method : String
  params : α
deriving DecidableEq

/-- The error member of an IPC response: required message, optional code,
from interface IPCResponse of the bridge. -/
structure IPCError where
  message : String
  code : Option Int
deriving DecidableEq

/-- A decoded IPC response, from interface IPCResponse of the bridge. -/
structure IPCResponse (α : Type) where
  id : String
  result : Option α
  error : Option IPCError
deriving DecidableEq

/-- Whitespace as recognised by String.prototype.trim (ECMA-262 WhiteSpace
and LineTerminator code points). -/
def jsWhitespace (c : Char) : Bool :=
  c == ' ' || c == '\t' || c == '\n' || c == '\r' ||
  c.toNat == 0xB || c.toNat == 0xC || c.toNat == 0xA0 || c.toNat == 0xFEFF ||
  c.toNat == 0x1680 || (decide (0x2000 ≤ c.toNat) && decide (c.toNat ≤ 0x200A)) ||
  c.toNat == 0x2028 || c.toNat == 0x2029 || c.toNat == 0x202F ||
  c.toNat == 0x205F || c.toNat == 0x3000

/-- The test !line.trim() used by both connection loops to skip a line:
true exactly when the line consists of whitespace only. -/
def jsBlank (l : List Char) : Bool := l.all jsWhitespace

/-- Accumulator-based model of String.prototype.split with a one-character
separator, as called by both data handlers: buffer.split(sep). -/
def jsSplitAux (sep : Char) : List Char → List Char → List (List Char)
  | [], acc => [acc.reverse]
  | c :: cs, acc =>
    if c = sep then acc.reverse :: jsSplitAux sep cs []
    else jsSplitAux sep cs (c :: acc)

/-- String.prototype.split with a one-character separator. -/
def jsSplit (sep : Char) (s : List Char) : List (List Char) :=
  jsSplitAux sep s []

/-- Structural-recursion companion of jsSplit, used for proofs. -/
def splitNl (sep : Char) : List Char → List (List Char)
  | [] => [[]]
  | c :: cs =>
    if c = sep then [] :: splitNl sep cs
    else
      match splitNl sep cs with
      | p :: ps => (c :: p) :: ps
      | [] => [[c]]

/-- The rebuilt buffer after a data event: lines.pop() with the fallback
(lines.pop() returns the final segment of the split, and the or-empty
guard leaves it unchanged since pop never yields undefined on a split
result). -/
def popBuffer (parts : List (List Char)) : List Char := parts.getLastD []

/-- The fully delimited lines handed to the per-line loop after the final
segment has been popped back into the buffer. -/
def completeLines (parts : List (List Char)) : List (List Char) := parts.dropLast

/-- The response value built by the connection loop of IPCServer.start for
one decoded request: on handler success the object with id and result, on
handler failure the object with id and an error carrying the message of
the failure (no code). -/
def mkResponse {α : Type} (req : IPCRequest α) (outcome : Except String α) :
    IPCResponse α :=
  match outcome with
  | .ok r => ⟨req.id, some r, none⟩
  | .error m => ⟨req.id, none, some ⟨m, none⟩⟩

/-- Observable actions of the server connection loop: a socket.write of a
framed response, or the console.error log emitted when JSON.parse throws. -/
inductive ServerEvent (α : Type) where
  | wrote (resp : IPCResponse α)
  | logParseError
deriving DecidableEq

/-- The body of the per-line loop in IPCServer.start for one line:
skip whitespace-only lines, log a parse failure, otherwise invoke the
handler and write exactly one response. -/
def serverHandleLine {α : Type} (parse : List Char → Option (IPCRequest α))
    (handler : String → α → Except String α) (line : List Char) :
    List (ServerEvent α) :=
  if jsBlank line then []
  else
    match parse line with
    | none => [ServerEvent.logParseError]
    | some req => [ServerEvent.wrote (mkResponse req (handler req.method req.params))]

/-- The per-line loop of IPCServer.start over the fully delimited lines of
one data event (with every awaited handler settling). -/
def serverLoop {α : Type} (parse : List Char → Option (IPCRequest α))
    (handler : String → α → Except String α) :
    List (List Char) → List (ServerEvent α)
  | [] => []
  | l :: ls => serverHandleLine parse handler l ++ serverLoop parse handler ls

/-- One data event of the server connection handler in IPCServer.start:
append the chunk text to the buffer, split on the newline, pop the final
segment back into the buffer, then run the per-line loop.  Returns the
emitted events and the new buffer. -/
def serverProcessChunk {α : Type} (parse : List Char → Option (IPCRequest α))
    (handler : String → α → Except String α) (buffer chunkText : List Char) :
    List (ServerEvent α) × List Char :=
  let parts := jsSplit '\n' (buffer ++ chunkText)
  (serverLoop parse handler (completeLines parts), popBuffer parts)

/-- Observable actions on the client side: a pending continuation resolved
with a result, a pending continuation rejected with an error message, a
framed request written to the socket, or the console.error log emitted
when JSON.parse throws in the data handler. -/
inductive ClientEvent (α : Type) where
  | resolved (id : String) (result : Option α)
  | rejected (id : String) (message : String)
  | sentRequest (req : IPCRequest α)
  | logParseError
deriving DecidableEq

/-- The body of the per-line loop in the data handler installed by
IPCClient.connect, for one line and the current pending-request table
(represented by its keys, in insertion order): skip whitespace-only
lines, log a parse failure, look the response id up in the table and, when
present, delete the entry and reject with the error message when the error
member is present, else resolve with the result; a response whose id is
not in the table is ignored. -/
def clientHandleLine {α : Type} (parse : List Char → Option (IPCResponse α))
    (pending : List String) (line : List Char) :
    List String × List (ClientEvent α) :=
  if jsBlank line then (pending, [])
  else
    match parse line with
    | none => (pending, [ClientEvent.logParseError])
    | some resp =>
      if resp.id ∈ pending then
        (pending.erase resp.id,
          match resp.error with
          | some e => [ClientEvent.rejected resp.id e.message]
          | none => [ClientEvent.resolved resp.id resp.result])
      else (pending, [])

/-- The per-line loop of the client data handler over the fully delimited
lines of one data event, threading the pending table through. -/
def clientLoop {α : Type} (parse : List Char → Option (IPCResponse α))
    (pending : List String) :
    List (List Char) → List String × List (ClientEvent α)
  | [] => (pending, [])
  | l :: ls =>
    let r := clientHandleLine parse pending l
    let rest := clientLoop parse r.1 ls
    (rest.1, r.2 ++ rest.2)

/-- The mutable state of an IPCClient: whether this.socket is non-null,
the keys of the pending-request map in insertion order, the request id
counter, and the receive buffer. -/
structure IPCClientState (α : Type) where
  connected : Bool
  pending : List String
  requestId : Nat
  buffer : List Char
deriving DecidableEq

/-- One data event of the client data handler installed by
IPCClient.connect: append the chunk text to the buffer, split on the
newline, pop the final segment back into the buffer, then run the
per-line loop. -/
def clientProcessData {α : Type} (parse : List Char → Option (IPCResponse α))
    (st : IPCClientState α) (chunkText : List Char) :
    IPCClientState α × List (ClientEvent α) :=
  let parts := jsSplit '\n' (st.buffer ++ chunkText)
  let r := clientLoop parse st.pending (completeLines parts)
  ({ st with buffer := popBuffer parts, pending := r.1 }, r.2)

/-- Decimal digit production of the number-to-string conversion, with
explicit fuel (the first argument) so that the definition is structural;
fuel at least the number being converted is always sufficient. -/
def natToStringFuel : Nat → Nat → List Char → List Char
  | 0, n, acc => Nat.digitChar (n % 10) :: acc
  | f + 1, n, acc =>
    if n < 10 then Nat.digitChar n :: acc
    else natToStringFuel f (n / 10) (Nat.digitChar (n % 10) :: acc)

/-- JavaScript String(n) for a non-negative integer n: its decimal digits. -/
def natToString (n : Nat) : List Char := natToStringFuel n n []

/-- Map.prototype.set on the key set of the pending table: a present key
keeps the table unchanged (its value is overwritten), an absent key is
appended in insertion order. -/
def mapSet (id : String) (pending : List String) : List String :=
  if id ∈ pending then pending else pending ++ [id]

/-- IPCClient.request: with no socket, throw the Not connected error
before touching the id counter, the pending table or the socket;
otherwise assign the next id String(++this.requestId), register the
pending continuation under that id, and write the framed request.
Returns the new state, the thrown error or the assigned id, and the
emitted events. -/
def clientRequest {α : Type} (st : IPCClientState α) (m : String) (p : α) :
    IPCClientState α × Except String String × List (ClientEvent α) :=
  if st.connected = false then (st, Except.error "Not connected", [])
  else
    let rid := st.requestId + 1
    let id := String.mk (natToString rid)
    ({ st with requestId := rid, pending := mapSet id st.pending },
      Except.ok id, [ClientEvent.sentRequest ⟨id, m, p⟩])

/-- The loop of the close handler installed by IPCClient.connect: reject
every still-pending continuation with the Connection closed error and
delete its entry. -/
def rejectAllLoop {α : Type} : List String → List (ClientEvent α)
  | [] => []
  | id :: rest => ClientEvent.rejected id "Connection closed" :: rejectAllLoop rest

/-- The close handler installed by IPCClient.connect: all pending entries
are rejected and removed; the socket field itself is not cleared there. -/
def clientOnClose {α : Type} (st : IPCClientState α) :
    IPCClientState α × List (ClientEvent α) :=
  ({ st with pending := [] }, rejectAllLoop st.pending)

/-- IPCClient.disconnect: destroy the socket and null it when present,
otherwise do nothing. -/
def clientDisconnect {α : Type} (st : IPCClientState α) : IPCClientState α :=
  if st.connected then { st with connected := false } else st

/-- The events a connected IPCClient reacts to: a request issued by the
consumer, a data event delivering chunk text, and the socket close
event. -/
inductive ClientOp (α : Type) where
  | request (m : String) (p : α)
  | data (chunkText : List Char)
  | close

/-- One event-loop step of the IPCClient. -/
def clientStep {α : Type} (parse : List Char → Option (IPCResponse α))
    (st : IPCClientState α) :
    ClientOp α → IPCClientState α × List (ClientEvent α)
  | ClientOp.request m p =>
    let r := clientRequest st m p
    (r.1, r.2.2)
  | ClientOp.data c => clientProcessData parse st c
  | ClientOp.close => clientOnClose st

/-- A run of the IPCClient event loop over a sequence of events,
accumulating the emitted events in order. -/
def clientRun {α : Type} (parse : List Char → Option (IPCResponse α))
    (st : IPCClientState α) :
    List (ClientOp α) → IPCClientState α × List (ClientEvent α)
  | [] => (st, [])
  | op :: ops =>
    let r := clientStep parse st op
    let rest := clientRun parse r.1 ops
    (rest.1, r.2 ++ rest.2)

/-- The state of an IPCClient right after a successful connect: socket
present, empty pending table, id counter zero, empty buffer. -/
def clientInit {α : Type} : IPCClientState α := ⟨true, [], 0, []⟩

/-- The state of an IPCClient on which connect has never been invoked:
this.socket is null. -/
def clientNew {α : Type} : IPCClientState α := ⟨false, [], 0, []⟩

/-- The method names of the switch in handleVSCodeRequest, in source
order. -/
def knownMethods : List String :=
  ["executeCommand", "readFile", "writeFile", "getConfig", "setConfig",
   "getActiveEditor", "showMessage", "getWorkspaceFolders", "listFiles",
   "openFile", "getOpenEditors", "getDiagnostics", "setSelection"]

/-- Dispatch skeleton of handleVSCodeRequest: a known method runs its
capability body (the editor API calls, out of scope here and supplied as
a parameter), the default branch throws the error
Unknown method: followed by the method name. -/
def handleVSCodeRequest {α : Type} (capability : String → α → Except String α)
    (m : String) (p : α) : Except String α :=
  if m ∈ knownMethods then capability m p
  else Except.error ("Unknown method: " ++ m)

/-- The module-level mutable state of the extension entry point: the
ipcServer and httpMcpServer singletons (identified by a creation counter
so that distinct instances are distinguishable) and the counter itself. -/
structure ExtensionState where
  ipcServer : Option Nat
  httpMcpServer : Option Nat
  nextInstance : Nat
deriving DecidableEq

/-- Observable actions of the extension lifecycle helpers. -/
inductive ExtEvent where
  | createdIPCServer (handle : Nat)
  | createdHttpServer (handle : Nat)
  | logMessage (msg : String)
  | stoppedIPCServer
  | stoppedHttpServer
deriving DecidableEq

/-- startIPCServer: when the singleton is already set, log and return;
otherwise construct the server (the assignment happens before the awaited
start call) and await its start, whose outcome is a parameter.  The
middle component is the thrown error message, when start rejected. -/
def startIPCServer (startOutcome : Except String Unit) (st : ExtensionState) :
    ExtensionState × Option String × List ExtEvent :=
  match st.ipcServer with
  | some _ => (st, none, [ExtEvent.logMessage "IPC server already running"])
  | none =>
    let created := st.nextInstance
    let st2 := { st with ipcServer := some created, nextInstance := created + 1 }
    match startOutcome with
    | Except.ok _ =>
      (st2, none,
        [ExtEvent.createdIPCServer created, ExtEvent.logMessage "IPC server started"])
    | Except.error e => (st2, some e, [ExtEvent.createdIPCServer created])

/-- stopIPCServer: stop and null the singleton when set, otherwise do
nothing. -/
def stopIPCServer (st : ExtensionState) : ExtensionState × List ExtEvent :=
  match st.ipcServer with
  | some _ => ({ st with ipcServer := none }, [ExtEvent.stoppedIPCServer])
  | none => (st, [])

/-- startHttpServer, with the same shape as startIPCServer. -/
def startHttpServer (startOutcome : Except String Unit) (st : ExtensionState) :
    ExtensionState × Option String × List ExtEvent :=
  match st.httpMcpServer with
  | some _ => (st, none, [ExtEvent.logMessage "HTTP MCP server already running"])
  | none =>
    let created := st.nextInstance
    let st2 := { st with httpMcpServer := some created, nextInstance := created + 1 }
    match startOutcome with
    | Except.ok _ =>
      (st2, none,
        [ExtEvent.createdHttpServer created, ExtEvent.logMessage "HTTP MCP server started"])
    | Except.error e => (st2, some e, [ExtEvent.createdHttpServer created])

/-- stopHttpServer: stop and null the singleton when set, otherwise do
nothing. -/
def stopHttpServer (st : ExtensionState) : ExtensionState × List ExtEvent :=
  match st.httpMcpServer with
  | some _ => ({ st with httpMcpServer := none }, [ExtEvent.stoppedHttpServer])
  | none => (st, [])

/-- Continuation-byte test of the UTF-8 decoder: 0x80 to 0xBF. -/
def isCont (b : Nat) : Bool := decide (0x80 ≤ b) && decide (b < 0xC0)

/-- The replacement character U+FFFD. -/
def repl : Char := Char.ofNat 0xFFFD

/-- One step of the WHATWG UTF-8 decoder with replacement, as performed by
Buffer.prototype.toString(): given the first byte and the remaining bytes,
produce the decoded character and how many of the remaining bytes the
sequence consumed.  Invalid and truncated sequences produce U+FFFD and
resume at the byte after the longest valid prefix of the sequence. -/
def utf8Step (b : Nat) (rest : List Nat) : Char × Nat :=
  if b < 0x80 then (Char.ofNat b, 0)
  else if b < 0xC2 then (repl, 0)
  else if b < 0xE0 then
    match rest with
    | [] => (repl, 0)
    | b1 :: _ =>
      if isCont b1 then (Char.ofNat ((b - 0xC0) * 0x40 + (b1 - 0x80)), 1)
      else (repl, 0)
  else if b < 0xF0 then
    match rest with
    | [] => (repl, 0)
    | b1 :: rest1 =>
      if isCont b1 && decide (b ≠ 0xE0 ∨ 0xA0 ≤ b1) && decide (b ≠ 0xED ∨ b1 < 0xA0) then
        match rest1 with
        | [] => (repl, 1)
        | b2 :: _ => if isCont b2 then
            (Char.ofNat (((b - 0xE0) * 0x40 + (b1 - 0x80)) * 0x40 + (b2 - 0x80)), 2)
          else (repl, 1)
      else (repl, 0)
  else if b < 0xF5 then
    match rest with
    | [] => (repl, 0)
    | b1 :: rest1 =>
      if isCont b1 && decide (b ≠ 0xF0 ∨ 0x90 ≤ b1) && decide (b ≠ 0xF4 ∨ b1 < 0x90) then
        match rest1 with
        | [] => (repl, 1)
        | b2 :: rest2 =>
          if isCont b2 then
            match rest2 with
            | [] => (repl, 2)
            | b3 :: _ => if isCont b3 then
                (Char.ofNat ((((b - 0xF0) * 0x40 + (b1 - 0x80)) * 0x40 + (b2 - 0x80)) * 0x40
                  + (b3 - 0x80)), 3)
              else (repl, 2)
          else (repl, 1)
      else (repl, 0)
  else (repl, 0)

/-- Fuelled driver of the UTF-8 decoder (fuel at least the list length is
always sufficient, one byte being consumed per step at minimum). -/
def utf8DecodeFuel : Nat → List Nat → List Char
  | 0, _ => []
  | _, [] => []
  | f + 1, b :: rest =>
    let s := utf8Step b rest
    s.1 :: utf8DecodeFuel f (rest.drop s.2)

/-- Buffer.prototype.toString() on one received chunk: WHATWG UTF-8
decoding with replacement, carrying no state across chunks. -/
def utf8LossyDecode (l : List Nat) : List Char := utf8DecodeFuel l.length l

/-- UTF-8 encoding of one character. -/
def utf8EncodeChar (c : Char) : List Nat :=
  let n := c.toNat
  if n < 0x80 then [n]
  else if n < 0x800 then [0xC0 + n / 0x40, 0x80 + n % 0x40]
  else if n < 0x10000 then
    [0xE0 + n / 0x1000, 0x80 + n / 0x40 % 0x40, 0x80 + n % 0x40]
  else
    [0xF0 + n / 0x40000, 0x80 + n / 0x1000 % 0x40, 0x80 + n / 0x40 % 0x40,
     0x80 + n % 0x40]

/-- UTF-8 encoding of a string, as produced by socket.write on the sending
side. -/
def utf8Encode (s : List Char) : List Nat := s.flatMap utf8EncodeChar

/-- The wire bytes produced by encoding a sequence of frames, each frame
being one single-line message text followed by one newline. -/
def encodeFrames (frames : List (List Char)) : List Nat :=
  utf8Encode (frames.flatMap (fun f => f ++ ['\n']))

/-- One data event of the framing decoder common to both sides, at the
text level: append the chunk text, split, pop the final segment back into
the buffer, and deliver every non-blank fully delimited line to
JSON.parse. -/
def deliverChunk (buffer chunkText : List Char) : List (List Char) × List Char :=
  let parts := jsSplit '\n' (buffer ++ chunkText)
  ((completeLines parts).filter (fun l => !jsBlank l), popBuffer parts)

/-- The framing decoder over a sequence of text chunks, starting from a
given buffer: all delivered lines in order, and the final buffer. -/
def deliverTextAux (buffer : List Char) :
    List (List Char) → List (List Char) × List Char
  | [] => ([], buffer)
  | c :: rest =>
    let r := deliverChunk buffer c
    let rest2 := deliverTextAux r.2 rest
    (r.1 ++ rest2.1, rest2.2)

/-- The full receiving pipeline on a sequence of delivered byte chunks:
each chunk is decoded with Buffer.prototype.toString() and fed to the
framing decoder, starting from an empty buffer.  Returns the lines
delivered to JSON.parse and the final buffer. -/
def decodeStream (chunks : List (List Nat)) : List (List Char) × List Char :=
  deliverTextAux [] (chunks.map utf8LossyDecode)

/-- A suspended run of the async data callback of IPCServer.start: the
request whose awaited handler promise is outstanding, and the remaining
lines of the same chunk, which are processed only after that promise
settles. -/
structure ServerTask (α : Type) where
  waiting : IPCRequest α
  rest : List (List Char)
deriving DecidableEq

/-- Observable actions of the interleaved server model: a handler
invocation (dispatch) for a request id, a socket.write of a response, or
the parse-failure log. -/
inductive SrvEvent (α : Type) where
  | dispatched (id : String)
  | wrote (resp : IPCResponse α)
  | logParseError
deriving DecidableEq

/-- Advance one data-callback run: process lines until a request is
decoded (its handler is then invoked and awaited, suspending the run) or
the lines are exhausted (the run completes). -/
def taskAdvance {α : Type} (parse : List Char → Option (IPCRequest α)) :
    List (List Char) → List (SrvEvent α) × Option (ServerTask α)
  | [] => ([], none)
  | l :: ls =>
    if jsBlank l then taskAdvance parse ls
    else
      match parse l with
      | none =>
        let r := taskAdvance parse ls
        (SrvEvent.logParseError :: r.1, r.2)
      | some req => ([SrvEvent.dispatched req.id], some ⟨req, ls⟩)

/-- State of one server connection in the interleaved model: the receive
buffer and the suspended data-callback runs, in creation order (a
completed run is kept as none so that positions are stable). -/
structure AsyncServerState (α : Type) where
  buffer : List Char
  tasks : List (Option (ServerTask α))
deriving DecidableEq

/-- The initial state of a server connection: fresh buffer, no runs. -/
def srvInit {α : Type} : AsyncServerState α := ⟨[], []⟩

/-- Events the interleaved server model reacts to: a data event delivering
chunk text, or the settling of the awaited handler promise of the
suspended run at a given position, with the outcome of the promise. -/
inductive SrvOp (α : Type) where
  | data (chunkText : List Char)
  | complete (i : Nat) (outcome : Except String α)

/-- One event-loop step of the interleaved server model.  A data event
synchronously consumes the buffer, splits, and starts a new callback run,
which advances until its first await.  A complete event resumes the
suspended run at that position: the response for the awaited request is
written, then the run advances through its remaining lines until the next
await or completion.  A complete event for a position that is not
suspended is a no-op. -/
def srvStep {α : Type} (parse : List Char → Option (IPCRequest α))
    (st : AsyncServerState α) :
    SrvOp α → AsyncServerState α × List (SrvEvent α)
  | SrvOp.data c =>
    let parts := jsSplit '\n' (st.buffer ++ c)
    let r := taskAdvance parse (completeLines parts)
    (⟨popBuffer parts, st.tasks ++ [r.2]⟩, r.1)
  | SrvOp.complete i outcome =>
    match st.tasks.getD i none with
    | none => (st, [])
    | some task =>
      let r := taskAdvance parse task.rest
      ({ st with tasks := st.tasks.set i r.2 },
        SrvEvent.wrote (mkResponse task.waiting outcome) :: r.1)

/-- A run of the interleaved server model over a sequence of events. -/
def srvRun {α : Type} (parse : List Char → Option (IPCRequest α))
    (st : AsyncServerState α) :
    List (SrvOp α) → AsyncServerState α × List (SrvEvent α)
  | [] => (st, [])
  | op :: ops =>
    let r := srvStep parse st op
    let rest := srvRun parse r.1 ops
    (rest.1, r.2 ++ rest.2)

/-- A concrete two-method parse function used to instantiate the
interleaved model on concrete traces: the line a decodes to request 1 for
methodA, the line b to request 2 for methodB. -/
def toyParse : List Char → Option (IPCRequest Unit) :=
  fun l =>
    if l = ['a'] then some ⟨"1", "methodA", ()⟩
    else if l = ['b'] then some ⟨"2", "methodB", ()⟩
    else none

/-- A concrete parse function for responses, used to instantiate theorems
on concrete inputs: the line r decodes to a success response for id 1. -/
def respParseA : List Char → Option (IPCResponse Unit) :=
  fun l => if l = ['r'] then some ⟨"1", some (), none⟩ else none

/-- A concrete capability table that accepts every method, used to
instantiate theorems on concrete inputs. -/
def capZero : String → Unit → Except String Unit := fun _ _ => Except.ok ()

theorem serverLoop_append {α : Type} (parse : List Char → Option (IPCRequest α))
    (handler : String → α → Except String α) (a b : List (List Char)) :
    serverLoop parse handler (a ++ b) =
      serverLoop parse handler a ++ serverLoop parse handler b := by
  induction a with
  | nil => rfl
  | cons l ls ih => simp [serverLoop, ih]

theorem clientLoop_append {α : Type} (parse : List Char → Option (IPCResponse α))
    (pending : List String) (a b : List (List Char)) :
    clientLoop parse pending (a ++ b) =
      ((clientLoop parse (clientLoop parse pending a).1 b).1,
        (clientLoop parse pending a).2 ++
          (clientLoop parse (clientLoop parse pending a).1 b).2) := by
  induction a generalizing pending with
  | nil => simp [clientLoop]
  | cons l ls ih => simp [clientLoop, ih]

/-- Claim C1: for every well-formed Request decoded on a listener
connection, the connection loop writes exactly one Response, on the same
connection, carrying the same id: the object with id and result when the
handler resolves, and the object with id and an error carrying the
human-readable message when the handler rejects; a decoded request
occurring in the line sequence of a data event contributes exactly one
write, never zero and never two. -/
theorem c1_exactly_one_response {α : Type}
    (parse : List Char → Option (IPCRequest α))
    (handler : String → α → Except String α)
    (line : List Char) (req : IPCRequest α)
    (hp : parse line = some req) (hnb : jsBlank line = false)
    (ls1 ls2 : List (List Char)) :
    serverHandleLine parse handler line =
      [ServerEvent.wrote (mkResponse req (handler req.method req.params))] ∧
    (mkResponse req (handler req.method req.params)).id = req.id ∧
    (∀ r, handler req.method req.params = Except.ok r →
      mkResponse req (handler req.method req.params) = ⟨req.id, some r, none⟩) ∧
    (∀ msg, handler req.method req.params = Except.error msg →
      mkResponse req (handler req.method req.params) = ⟨req.id, none, some ⟨msg, none⟩⟩) ∧
    serverLoop parse handler (ls1 ++ line :: ls2) =
      serverLoop parse handler ls1 ++
        ServerEvent.wrote (mkResponse req (handler req.method req.params)) ::
          serverLoop parse handler ls2 := by
  refine ⟨by simp [serverHandleLine, hnb, hp], ?_, ?_, ?_, ?_⟩
  · rcases h : handler req.method req.params with r | msg <;> simp [mkResponse, h]
  · intro r h; simp [mkResponse, h]
  · intro msg h; simp [mkResponse, h]
  · rw [serverLoop_append]
    simp [serverLoop, serverHandleLine, hnb, hp]

theorem c1_witness :
    serverHandleLine toyParse capZero ['a'] = [ServerEvent.wrote ⟨"1", some (), none⟩] :=
  (c1_exactly_one_response toyParse capZero ['a'] ⟨"1", "methodA", ()⟩ rfl rfl [] []).1

/-- Claim C5: on a decoded Response whose id matches a pending entry, the
client removes the entry and rejects the continuation with the message of
the error member when present, else resolves it with the result; a
decoded Response whose id matches no pending entry is ignored, raising
nothing and leaving the table unchanged. -/
theorem c5_resolve_by_id {α : Type}
    (parse : List Char → Option (IPCResponse α)) (pending : List String)
    (line : List Char) (resp : IPCResponse α)
    (hp : parse line = some resp) (hnb : jsBlank line = false) :
    (resp.id ∈ pending →
      clientHandleLine parse pending line =
        (pending.erase resp.id,
          match resp.error with
          | some e => [ClientEvent.rejected resp.id e.message]
          | none => [ClientEvent.resolved resp.id resp.result])) ∧
    (resp.id ∉ pending →
      clientHandleLine parse pending line = (pending, [])) := by
  constructor <;> intro h <;> simp [clientHandleLine, hp, hnb, h]

theorem c5_witness :
    clientHandleLine respParseA ["1", "2"] ['r'] =
      ((["1", "2"] : List String).erase "1", [ClientEvent.resolved "1" (some ())]) :=
  (c5_resolve_by_id respParseA ["1", "2"] ['r'] ⟨"1", some (), none⟩ rfl rfl).1 (by decide)

/-- Claim C8: for a method name outside the capability catalog, the
request handler rejects with the message Unknown method: followed by the
method name; the listener performs no whitelisting of its own, so the
connection loop writes the response with that id and that error message,
and a client that decodes this response while the id is pending rejects
the continuation with exactly that message. -/
theorem c8_unknown_method {α : Type}
    (capability : String → α → Except String α) (m : String) (p : α)
    (hm : m ∉ knownMethods) (id : String) (pending : List String)
    (hid : id ∈ pending) :
    handleVSCodeRequest capability m p = Except.error ("Unknown method: " ++ m) ∧
    mkResponse ⟨id, m, p⟩ (handleVSCodeRequest capability m p) =
      ⟨id, none, some ⟨"Unknown method: " ++ m, none⟩⟩ ∧
    (∀ (parse : List Char → Option (IPCRequest α)) (line : List Char),
      parse line = some ⟨id, m, p⟩ → jsBlank line = false →
      serverHandleLine parse (handleVSCodeRequest capability) line =
        [ServerEvent.wrote ⟨id, none, some ⟨"Unknown method: " ++ m, none⟩⟩]) ∧
    (∀ (parseR : List Char → Option (IPCResponse α)) (line : List Char),
      parseR line = some ⟨id, none, some ⟨"Unknown method: " ++ m, none⟩⟩ →
      jsBlank line = false →
      clientHandleLine parseR pending line =
        (pending.erase id, [ClientEvent.rejected id ("Unknown method: " ++ m)])) := by
  have hh : handleVSCodeRequest capability m p = Except.error ("Unknown method: " ++ m) := by
    simp [handleVSCodeRequest, hm]
  refine ⟨hh, by simp [mkResponse, hh], ?_, ?_⟩
  · intro parse line hp hnb
    simp [serverHandleLine, hp, hnb, mkResponse, hh]
  · intro parseR line hp hnb
    simp [clientHandleLine, hp, hnb, hid]

theorem c8_witness :
    handleVSCodeRequest capZero "unknownMethod" () =
      Except.error "Unknown method: unknownMethod" ∧
    mkResponse ⟨"2", "unknownMethod", ()⟩ (handleVSCodeRequest capZero "unknownMethod" ()) =
      ⟨"2", none, some ⟨"Unknown method: unknownMethod", none⟩⟩ := by
  have h := c8_unknown_method capZero "unknownMethod" () (by decide) "2" ["2"] (by decide)
  exact ⟨h.1, h.2.1⟩

/-- Claim C9: invoking the start helpers while the corresponding server
singleton is already set logs, creates no second instance, changes no
state and throws nothing; invoking the stop helpers while the singleton
is null is a no-op that changes no state and throws nothing. -/
theorem c9_idempotent_lifecycle (st st2 : ExtensionState)
    (o1 o2 : Except String Unit)
    (h1 : st.ipcServer.isSome = true) (h2 : st.httpMcpServer.isSome = true)
    (h3 : st2.ipcServer = none) (h4 : st2.httpMcpServer = none) :
    startIPCServer o1 st = (st, none, [ExtEvent.logMessage "IPC server already running"]) ∧
    startHttpServer o2 st =
      (st, none, [ExtEvent.logMessage "HTTP MCP server already running"]) ∧
    stopIPCServer st2 = (st2, []) ∧
    stopHttpServer st2 = (st2, []) := by
  obtain ⟨a, ha⟩ := Option.isSome_iff_exists.mp h1
  obtain ⟨b, hb⟩ := Option.isSome_iff_exists.mp h2
  refine ⟨?_, ?_, ?_, ?_⟩ <;>
    simp [startIPCServer, startHttpServer, stopIPCServer, stopHttpServer, ha, hb, h3, h4]

theorem c9_witness :
    startIPCServer (Except.ok ()) ⟨some 0, some 1, 2⟩ =
      (⟨some 0, some 1, 2⟩, none, [ExtEvent.logMessage "IPC server already running"]) ∧
    startHttpServer (Except.ok ()) ⟨some 0, some 1, 2⟩ =
      (⟨some 0, some 1, 2⟩, none, [ExtEvent.logMessage "HTTP MCP server already running"]) ∧
    stopIPCServer ⟨none, none, 0⟩ = (⟨none, none, 0⟩, []) ∧
    stopHttpServer ⟨none, none, 0⟩ = (⟨none, none, 0⟩, []) :=
  c9_idempotent_lifecycle ⟨some 0, some 1, 2⟩ ⟨none, none, 0⟩ (Except.ok ()) (Except.ok ())
    rfl rfl rfl rfl

/-- Claim C10: IPCClient.request with no socket (connect never invoked, or
disconnect run) throws the Not connected error synchronously: the state
is returned untouched (no id assigned, no pending entry inserted) and no
bytes are written; disconnect always leaves the socket field null, and a
fresh client has it null. -/
theorem c10_request_not_connected {α : Type} (st : IPCClientState α)
    (m : String) (p : α) (h : st.connected = false) :
    clientRequest st m p = (st, Except.error "Not connected", []) ∧
    (∀ st2 : IPCClientState α, (clientDisconnect st2).connected = false) ∧
    (clientNew : IPCClientState α).connected = false := by
  refine ⟨by simp [clientRequest, h], ?_, rfl⟩
  intro st2
  by_cases h2 : st2.connected <;> simp [clientDisconnect, h2]

theorem c10_witness :
    clientRequest (clientNew : IPCClientState Unit) "readFile" () =
      (clientNew, Except.error "Not connected", []) :=
  (c10_request_not_connected (clientNew : IPCClientState Unit) "readFile" () rfl).1

/-- Claim C4: a fully delimited line that fails JSON parsing is dropped
with only a log, on either side: the bad line contributes exactly the log
event, every other line of the data event is processed exactly as it
would be otherwise, the rebuilt buffer does not depend on parse outcomes
at all, and no close or throw action exists in either loop. -/
theorem c4_parse_failure_isolated {α : Type}
    (parse : List Char → Option (IPCRequest α))
    (handler : String → α → Except String α)
    (parseR : List Char → Option (IPCResponse α))
    (line : List Char) (hS : parse line = none) (hC : parseR line = none)
    (hnb : jsBlank line = false) (ls1 ls2 : List (List Char))
    (buffer chunkText : List Char) (pending : List String)
    (st : IPCClientState α) :
    serverHandleLine parse handler line = [ServerEvent.logParseError] ∧
    serverLoop parse handler (ls1 ++ line :: ls2) =
      serverLoop parse handler ls1 ++
        ServerEvent.logParseError :: serverLoop parse handler ls2 ∧
    (∀ (parse2 : List Char → Option (IPCRequest α))
      (handler2 : String → α → Except String α),
      (serverProcessChunk parse handler buffer chunkText).2 =
        (serverProcessChunk parse2 handler2 buffer chunkText).2) ∧
    clientHandleLine parseR pending line = (pending, [ClientEvent.logParseError]) ∧
    clientLoop parseR pending (ls1 ++ line :: ls2) =
      ((clientLoop parseR (clientLoop parseR pending ls1).1 ls2).1,
        (clientLoop parseR pending ls1).2 ++
          ClientEvent.logParseError ::
            (clientLoop parseR (clientLoop parseR pending ls1).1 ls2).2) ∧
    (∀ (parseR2 : List Char → Option (IPCResponse α)),
      (clientProcessData parseR st chunkText).1.buffer =
        (clientProcessData parseR2 st chunkText).1.buffer) := by
  refine ⟨by simp [serverHandleLine, hS, hnb], ?_, fun _ _ => rfl, ?_, ?_, fun _ => rfl⟩
  · rw [serverLoop_append]
    simp [serverLoop, serverHandleLine, hS, hnb]
  · simp [clientHandleLine, hC, hnb]
  · rw [clientLoop_append]
    simp [clientLoop, clientHandleLine, hC, hnb]

theorem c4_witness :
    serverHandleLine toyParse capZero ['x'] = [ServerEvent.logParseError] :=
  (c4_parse_failure_isolated toyParse capZero respParseA ['x'] rfl rfl rfl [] [] [] []
    [] (clientInit : IPCClientState Unit)).1

theorem splitNl_ne_nil (sep : Char) (s : List Char) : splitNl sep s ≠ [] := by
  cases s with
  | nil => simp [splitNl]
  | cons c cs =>
    simp only [splitNl]
    split
    · simp
    · split <;> simp

theorem splitNl_cons_sep (sep : Char) (cs : List Char) :
    splitNl sep (sep :: cs) = [] :: splitNl sep cs := by
  simp [splitNl]

theorem splitNl_cons_ne (sep c : Char) (cs : List Char) (h : c ≠ sep) :
    splitNl sep (c :: cs) =
      (c :: (splitNl sep cs).headD []) :: (splitNl sep cs).tail := by
  simp only [splitNl, if_neg h]
  rcases hcs : splitNl sep cs with _ | ⟨p, ps⟩
  · exact absurd hcs (splitNl_ne_nil sep cs)
  · simp

theorem jsSplitAux_eq_splitNl (sep : Char) (s : List Char) :
    ∀ acc : List Char,
      jsSplitAux sep s acc =
        (acc.reverse ++ (splitNl sep s).headD []) :: (splitNl sep s).tail := by
  induction s with
  | nil => intro acc; simp [jsSplitAux, splitNl]
  | cons c cs ih =>
    intro acc
    by_cases h : c = sep
    · rw [h]
      rw [show jsSplitAux sep (sep :: cs) acc = acc.reverse :: jsSplitAux sep cs [] by
        simp [jsSplitAux], ih [], splitNl_cons_sep]
      rcases hcs : splitNl sep cs with _ | ⟨p, ps⟩
      · exact absurd hcs (splitNl_ne_nil sep cs)
      · simp
    · rw [show jsSplitAux sep (c :: cs) acc = jsSplitAux sep cs (c :: acc) by
        simp [jsSplitAux, h], ih (c :: acc), splitNl_cons_ne sep c cs h]
      rcases hcs : splitNl sep cs with _ | ⟨p, ps⟩
      · exact absurd hcs (splitNl_ne_nil sep cs)
      · simp

theorem jsSplit_eq_splitNl (sep : Char) (s : List Char) :
    jsSplit sep s = splitNl sep s := by
  rw [jsSplit, jsSplitAux_eq_splitNl]
  rcases hs : splitNl sep s with _ | ⟨p, ps⟩
  · exact absurd hs (splitNl_ne_nil sep s)
  · simp

theorem splitNl_sep_free (sep : Char) (s : List Char) (h : sep ∉ s) :
    splitNl sep s = [s] := by
  induction s with
  | nil => rfl
  | cons c cs ih =>
    have hc : c ≠ sep := fun hc => h (hc ▸ List.mem_cons_self c cs)
    rw [splitNl_cons_ne sep c cs hc, ih (fun hm => h (List.mem_cons_of_mem c hm))]
    simp

theorem splitNl_frame (sep : Char) (m rest : List Char) (h : sep ∉ m) :
    splitNl sep (m ++ sep :: rest) = m :: splitNl sep rest := by
  induction m with
  | nil => simpa using splitNl_cons_sep sep rest
  | cons c m1 ih =>
    have hc : c ≠ sep := fun hc => h (hc ▸ List.mem_cons_self c m1)
    rw [List.cons_append, splitNl_cons_ne sep c _ hc,
      ih (fun hm => h (List.mem_cons_of_mem c hm))]
    simp

theorem splitNl_stream (sep : Char) (frames : List (List Char))
    (h : ∀ f ∈ frames, sep ∉ f) :
    splitNl sep (frames.flatMap (fun f => f ++ [sep])) = frames ++ [[]] := by
  induction frames with
  | nil => rfl
  | cons f fs ih =>
    rw [List.flatMap_cons, List.append_assoc, List.singleton_append,
      splitNl_frame sep f _ (h f (List.mem_cons_self f fs)),
      ih (fun g hg => h g (List.mem_cons_of_mem f hg))]
    simp

theorem splitNl_sep_not_mem (sep : Char) (s : List Char) :
    ∀ p ∈ splitNl sep s, sep ∉ p := by
  induction s with
  | nil =>
    intro p hp
    simp [splitNl] at hp
    simp [hp]
  | cons c cs ih =>
    by_cases h : c = sep
    · subst h
      rw [splitNl_cons_sep]
      intro p hp
      rcases List.mem_cons.mp hp with rfl | hp
      · simp
      · exact ih p hp
    · rw [splitNl_cons_ne sep c cs h]
      intro p hp
      rcases List.mem_cons.mp hp with rfl | hp
      · intro hmem
        rcases List.mem_cons.mp hmem with rfl | hmem
        · exact h rfl
        · rcases hcs : splitNl sep cs with _ | ⟨q, qs⟩
          · exact absurd hcs (splitNl_ne_nil sep cs)
          · exact ih _ (by rw [hcs]; exact List.mem_cons_self q qs) (by
              rw [hcs] at hmem; exact hmem)
      · rcases hcs : splitNl sep cs with _ | ⟨q, qs⟩
        · exact absurd hcs (splitNl_ne_nil sep cs)
        · rw [hcs] at hp
          exact ih p (by rw [hcs]; exact List.mem_cons_of_mem q hp)

/-- Rejoin extracted complete lines, each with its delimiter, in front of
the retained buffer: the conservation shape of the framing invariant. -/
def joinTerminated (sep : Char) (lines : List (List Char)) (buf : List Char) :
    List Char :=
  lines.foldr (fun l acc => l ++ sep :: acc) buf

theorem splitNl_join (sep : Char) (s : List Char) :
    joinTerminated sep (splitNl sep s).dropLast ((splitNl sep s).getLastD []) = s := by
  induction s with
  | nil => rfl
  | cons c cs ih =>
    by_cases h : c = sep
    · rw [h]
      rw [splitNl_cons_sep]
      rcases hcs : splitNl sep cs with _ | ⟨p, ps⟩
      · exact absurd hcs (splitNl_ne_nil sep cs)
      · rw [hcs] at ih
        simpa [joinTerminated] using congrArg (fun t => ([] : List Char) ++ sep :: t) ih
    · rw [splitNl_cons_ne sep c cs h]
      rcases hcs : splitNl sep cs with _ | ⟨p, ps⟩
      · exact absurd hcs (splitNl_ne_nil sep cs)
      · rw [hcs] at ih
        rcases hps : ps with _ | ⟨q, qs⟩
        · subst hps
          simpa [joinTerminated] using congrArg (fun t => c :: t) ih
        · subst hps
          simpa [joinTerminated] using congrArg (fun t => c :: t) ih

/-- Merge a leading retained segment into the head of a split result. -/
def consFirst (x : List Char) : List (List Char) → List (List Char)
  | [] => [x]
  | p :: ps => (x ++ p) :: ps

theorem getLastD_mem {β : Type} (l : List β) (d : β) (h : l ≠ []) :
    l.getLastD d ∈ l := by
  induction l generalizing d with
  | nil => exact absurd rfl h
  | cons a l ih =>
    rw [List.getLastD_cons]
    rcases hl : l with _ | ⟨b, bs⟩
    · simp
    · exact List.mem_cons_of_mem a (hl ▸ ih a (by simp [hl]))

theorem getLastD_irrel {β : Type} (l : List β) (h : l ≠ []) (d1 d2 : β) :
    l.getLastD d1 = l.getLastD d2 := by
  rcases l with _ | ⟨x, xs⟩
  · exact absurd rfl h
  · rw [List.getLastD_cons, List.getLastD_cons]

theorem getLastD_append_ne {β : Type} (l1 l2 : List β) (d : β) (h : l2 ≠ []) :
    (l1 ++ l2).getLastD d = l2.getLastD d := by
  induction l1 with
  | nil => rfl
  | cons a l1 ih =>
    have hne : l1 ++ l2 ≠ [] := fun hx => h (List.append_eq_nil.mp hx).2
    rw [List.cons_append, List.getLastD_cons, getLastD_irrel (l1 ++ l2) hne a d, ih]

theorem splitNl_append (sep : Char) (a b : List Char) :
    splitNl sep (a ++ b) =
      (splitNl sep a).dropLast ++
        consFirst ((splitNl sep a).getLastD []) (splitNl sep b) := by
  induction a with
  | nil =>
    rcases hb : splitNl sep b with _ | ⟨q, qs⟩
    · exact absurd hb (splitNl_ne_nil sep b)
    · simp [splitNl, consFirst, hb]
  | cons c cs ih =>
    by_cases h : c = sep
    · rw [h, List.cons_append, splitNl_cons_sep, splitNl_cons_sep, ih]
      rcases hcs : splitNl sep cs with _ | ⟨p, ps⟩
      · exact absurd hcs (splitNl_ne_nil sep cs)
      · simp [List.getLastD_cons]
    · rw [List.cons_append, splitNl_cons_ne sep c _ h, splitNl_cons_ne sep c cs h, ih]
      rcases hcs : splitNl sep cs with _ | ⟨p, ps⟩
      · exact absurd hcs (splitNl_ne_nil sep cs)
      · rcases hps : ps with _ | ⟨q, qs⟩
        · rcases hb : splitNl sep b with _ | ⟨r, rs⟩
          · exact absurd hb (splitNl_ne_nil sep b)
          · simp [consFirst, List.getLastD_cons]
        · simp [consFirst, List.getLastD_cons]

theorem splitNl_sep_free_append (sep : Char) (buf t : List Char)
    (h : sep ∉ buf) :
    splitNl sep (buf ++ t) = consFirst buf (splitNl sep t) := by
  rw [splitNl_append, splitNl_sep_free sep buf h]
  simp

theorem consFirst_ne_nil (x : List Char) (l : List (List Char)) :
    consFirst x l ≠ [] := by
  cases l <;> simp [consFirst]

theorem deliverTextAux_eq (cs : List (List Char)) :
    ∀ buffer : List Char, ('\n') ∉ buffer →
      deliverTextAux buffer cs =
        (((splitNl '\n' (buffer ++ cs.flatten)).dropLast).filter
            (fun l => !jsBlank l),
          (splitNl '\n' (buffer ++ cs.flatten)).getLastD []) := by
  induction cs with
  | nil =>
    intro buffer hb
    simp [deliverTextAux, splitNl_sep_free _ _ hb]
  | cons c rest ih =>
    intro buffer hb
    have hbuf2 : ('\n') ∉ (splitNl '\n' (buffer ++ c)).getLastD [] := by
      apply splitNl_sep_not_mem '\n' (buffer ++ c)
      exact getLastD_mem _ _ (splitNl_ne_nil _ _)
    have hQ :
        splitNl '\n' ((splitNl '\n' (buffer ++ c)).getLastD [] ++ rest.flatten) ≠ [] :=
      splitNl_ne_nil _ _
    have hsplit :
        splitNl '\n' (buffer ++ (c :: rest).flatten) =
          (splitNl '\n' (buffer ++ c)).dropLast ++
            splitNl '\n' ((splitNl '\n' (buffer ++ c)).getLastD [] ++ rest.flatten) := by
      rw [List.flatten_cons, ← List.append_assoc, splitNl_append '\n' (buffer ++ c),
        splitNl_sep_free_append '\n' _ _ hbuf2]
    have hchunk : deliverChunk buffer c =
        (((splitNl '\n' (buffer ++ c)).dropLast).filter (fun l => !jsBlank l),
          (splitNl '\n' (buffer ++ c)).getLastD []) := by
      simp [deliverChunk, jsSplit_eq_splitNl, completeLines, popBuffer]
    simp only [deliverTextAux]
    rw [hchunk]
    simp only
    rw [ih _ hbuf2, hsplit]
    simp only
    rw [List.dropLast_append_of_ne_nil _ hQ, List.filter_append,
      getLastD_append_ne _ _ _ hQ]

theorem utf8DecodeFuel_congr :
    ∀ (f1 f2 : Nat) (l : List Nat), l.length ≤ f1 → l.length ≤ f2 →
      utf8DecodeFuel f1 l = utf8DecodeFuel f2 l := by
  intro f1
  induction f1 with
  | zero =>
    intro f2 l h1 h2
    have : l = [] := List.length_eq_zero.mp (Nat.le_zero.mp h1)
    subst this
    cases f2 <;> rfl
  | succ f ih =>
    intro f2 l h1 h2
    cases l with
    | nil => cases f2 <;> rfl
    | cons b rest =>
      cases f2 with
      | zero => simp at h2
      | succ f2x =>
        simp only [utf8DecodeFuel]
        have hd : (rest.drop (utf8Step b rest).2).length ≤ rest.length := by
          rw [List.length_drop]; omega
        have hlen : rest.length ≤ f := by simpa using h1
        have hlen2 : rest.length ≤ f2x := by simpa using h2
        rw [ih f2x _ (le_trans hd hlen) (le_trans hd hlen2)]

theorem utf8LossyDecode_cons (b : Nat) (l : List Nat) :
    utf8LossyDecode (b :: l) =
      (utf8Step b l).1 :: utf8LossyDecode (l.drop (utf8Step b l).2) := by
  show utf8DecodeFuel (l.length + 1) (b :: l) = _
  simp only [utf8DecodeFuel]
  rw [utf8DecodeFuel_congr l.length (l.drop (utf8Step b l).2).length
    (l.drop (utf8Step b l).2) (by rw [List.length_drop]; omega) le_rfl]
  rfl

theorem utf8Step_ascii (b : Nat) (bs : List Nat) (h : b < 0x80) :
    utf8Step b bs = (Char.ofNat b, 0) := by
  simp [utf8Step, h]

theorem utf8Step_two (b b1 : Nat) (bs : List Nat)
    (h1 : 0xC2 ≤ b) (h2 : b < 0xE0) (h3 : isCont b1 = true) :
    utf8Step b (b1 :: bs) = (Char.ofNat ((b - 0xC0) * 0x40 + (b1 - 0x80)), 1) := by
  simp only [utf8Step]
  rw [if_neg (by omega), if_neg (by omega), if_pos h2]
  simp [h3]

theorem utf8Step_three (b b1 b2 : Nat) (bs : List Nat)
    (h1 : 0xE0 ≤ b) (h2 : b < 0xF0) (h3 : isCont b1 = true)
    (h4 : b = 0xE0 → 0xA0 ≤ b1) (h5 : b = 0xED → b1 < 0xA0)
    (h6 : isCont b2 = true) :
    utf8Step b (b1 :: b2 :: bs) =
      (Char.ofNat (((b - 0xE0) * 0x40 + (b1 - 0x80)) * 0x40 + (b2 - 0x80)), 2) := by
  simp only [utf8Step]
  rw [if_neg (by omega), if_neg (by omega), if_neg (by omega), if_pos h2]
  have hg : (isCont b1 && decide (b ≠ 0xE0 ∨ 0xA0 ≤ b1) &&
      decide (b ≠ 0xED ∨ b1 < 0xA0)) = true := by
    simp only [h3, Bool.true_and, Bool.and_eq_true, decide_eq_true_eq]
    constructor
    · by_cases hb : b = 0xE0
      · exact Or.inr (h4 hb)
      · exact Or.inl hb
    · by_cases hb : b = 0xED
      · exact Or.inr (h5 hb)
      · exact Or.inl hb
  rw [hg]
  simp [h6]

theorem utf8Step_four (b b1 b2 b3 : Nat) (bs : List Nat)
    (h1 : 0xF0 ≤ b) (h2 : b < 0xF5) (h3 : isCont b1 = true)
    (h4 : b = 0xF0 → 0x90 ≤ b1) (h5 : b = 0xF4 → b1 < 0x90)
    (h6 : isCont b2 = true) (h7 : isCont b3 = true) :
    utf8Step b (b1 :: b2 :: b3 :: bs) =
      (Char.ofNat ((((b - 0xF0) * 0x40 + (b1 - 0x80)) * 0x40 + (b2 - 0x80)) * 0x40
        + (b3 - 0x80)), 3) := by
  simp only [utf8Step]
  rw [if_neg (by omega), if_neg (by omega), if_neg (by omega), if_neg (by omega),
    if_pos h2]
  have hg : (isCont b1 && decide (b ≠ 0xF0 ∨ 0x90 ≤ b1) &&
      decide (b ≠ 0xF4 ∨ b1 < 0x90)) = true := by
    simp only [h3, Bool.true_and, Bool.and_eq_true, decide_eq_true_eq]
    constructor
    · by_cases hb : b = 0xF0
      · exact Or.inr (h4 hb)
      · exact Or.inl hb
    · by_cases hb : b = 0xF4
      · exact Or.inr (h5 hb)
      · exact Or.inl hb
  rw [hg]
  simp [h6, h7]

theorem utf8_decode_encodeChar (c : Char) (bs : List Nat) :
    utf8LossyDecode (utf8EncodeChar c ++ bs) = c :: utf8LossyDecode bs := by
  have hv : Nat.isValidChar c.toNat := c.valid
  have hofnat : Char.ofNat c.toNat = c := Char.ofNat_toNat c
  have hval : c.toNat < 0xD800 ∨ (0xDFFF < c.toNat ∧ c.toNat < 0x110000) := hv
  rcases Nat.lt_or_ge c.toNat 0x80 with h80 | h80
  · rw [show utf8EncodeChar c = [c.toNat] by simp [utf8EncodeChar, h80],
      List.singleton_append, utf8LossyDecode_cons,
      utf8Step_ascii c.toNat bs h80]
    simp [hofnat]
  · rcases Nat.lt_or_ge c.toNat 0x800 with h800 | h800
    · rw [show utf8EncodeChar c =
          [0xC0 + c.toNat / 0x40, 0x80 + c.toNat % 0x40] by
        simp only [utf8EncodeChar]
        rw [if_neg (by omega), if_pos h800]]
      rw [List.cons_append, List.cons_append, List.nil_append,
        utf8LossyDecode_cons,
        utf8Step_two _ _ bs (by omega) (by omega) (by simp [isCont]; omega)]
      have harith : (0xC0 + c.toNat / 0x40 - 0xC0) * 0x40 +
          (0x80 + c.toNat % 0x40 - 0x80) = c.toNat := by omega
      rw [harith, hofnat]
      simp
    · rcases Nat.lt_or_ge c.toNat 0x10000 with h10000 | h10000
      · rw [show utf8EncodeChar c =
            [0xE0 + c.toNat / 0x1000, 0x80 + c.toNat / 0x40 % 0x40,
              0x80 + c.toNat % 0x40] by
          simp only [utf8EncodeChar]
          rw [if_neg (by omega), if_neg (by omega), if_pos h10000]]
        rw [List.cons_append, List.cons_append, List.cons_append, List.nil_append,
          utf8LossyDecode_cons,
          utf8Step_three _ _ _ bs (by omega) (by omega)
            (by simp [isCont]; omega)
            (by intro hb; omega)
            (by intro hb; rcases hval with hlt | ⟨hgt, hub⟩ <;> omega)
            (by simp [isCont]; omega)]
        have harith : ((0xE0 + c.toNat / 0x1000 - 0xE0) * 0x40 +
            (0x80 + c.toNat / 0x40 % 0x40 - 0x80)) * 0x40 +
            (0x80 + c.toNat % 0x40 - 0x80) = c.toNat := by omega
        rw [harith, hofnat]
        simp
      · have hub : c.toNat < 0x110000 := by
          rcases hval with hlt | ⟨hgt, hub⟩ <;> omega
        rw [show utf8EncodeChar c =
            [0xF0 + c.toNat / 0x40000, 0x80 + c.toNat / 0x1000 % 0x40,
              0x80 + c.toNat / 0x40 % 0x40, 0x80 + c.toNat % 0x40] by
          simp only [utf8EncodeChar]
          rw [if_neg (by omega), if_neg (by omega), if_neg (by omega)]]
        rw [List.cons_append, List.cons_append, List.cons_append, List.cons_append,
          List.nil_append, utf8LossyDecode_cons,
          utf8Step_four _ _ _ _ bs (by omega) (by omega)
            (by simp [isCont]; omega)
            (by intro hb; omega)
            (by intro hb; omega)
            (by simp [isCont]; omega)
            (by simp [isCont]; omega)]
        have harith : (((0xF0 + c.toNat / 0x40000 - 0xF0) * 0x40 +
            (0x80 + c.toNat / 0x1000 % 0x40 - 0x80)) * 0x40 +
            (0x80 + c.toNat / 0x40 % 0x40 - 0x80)) * 0x40 +
            (0x80 + c.toNat % 0x40 - 0x80) = c.toNat := by omega
        rw [harith, hofnat]
        simp

theorem utf8_decode_encode (s : List Char) :
    utf8LossyDecode (utf8Encode s) = s := by
  induction s with
  | nil => rfl
  | cons c cs ih =>
    rw [show utf8Encode (c :: cs) = utf8EncodeChar c ++ utf8Encode cs by
      simp [utf8Encode], utf8_decode_encodeChar, ih]

theorem utf8Encode_flatten (cc : List (List Char)) :
    (cc.map utf8Encode).flatten = utf8Encode cc.flatten := by
  induction cc with
  | nil => rfl
  | cons c cs ih => simp [utf8Encode, ih]

/-- Claim C3 (amended): after each data event, on either side, the
receive buffer holds exactly the trailing un-terminated partial frame of
the decoded text (it contains no delimiter, and rejoining the extracted
complete frames, each with its delimiter, in front of it reconstructs the
processed text exactly, so no character is duplicated or dropped except
the delimiters); the byte-level form of the claim fails when a chunk
boundary splits a multi-byte UTF-8 sequence, since each chunk is decoded
independently (see the counterexample). -/
theorem c3_amended_buffer_invariant {α : Type}
    (parse : List Char → Option (IPCRequest α))
    (handler : String → α → Except String α)
    (parseR : List Char → Option (IPCResponse α))
    (buffer chunkText : List Char) (conn : Bool) (pending : List String)
    (rid : Nat) :
    ('\n') ∉ (serverProcessChunk parse handler buffer chunkText).2 ∧
    joinTerminated '\n' (completeLines (jsSplit '\n' (buffer ++ chunkText)))
      ((serverProcessChunk parse handler buffer chunkText).2) =
      buffer ++ chunkText ∧
    (clientProcessData parseR ⟨conn, pending, rid, buffer⟩ chunkText).1.buffer =
      (serverProcessChunk parse handler buffer chunkText).2 := by
  have h2 : (serverProcessChunk parse handler buffer chunkText).2 =
      (splitNl '\n' (buffer ++ chunkText)).getLastD [] := by
    simp [serverProcessChunk, popBuffer, jsSplit_eq_splitNl]
  refine ⟨?_, ?_, ?_⟩
  · rw [h2]
    exact splitNl_sep_not_mem '\n' (buffer ++ chunkText) _
      (getLastD_mem _ _ (splitNl_ne_nil _ _))
  · rw [h2, completeLines, jsSplit_eq_splitNl]
    exact splitNl_join '\n' (buffer ++ chunkText)
  · simp [clientProcessData, serverProcessChunk]

/-- Claim C3 counterexample: the two bytes of the character 0xE9 delivered
in two one-byte chunks are both replaced by U+FFFD in the buffer, while
the same bytes delivered in one chunk decode to that character: a byte
other than the delimiter is dropped across a chunk boundary, refuting the
byte-level conservation claim. -/
theorem c3_counterexample :
    (serverProcessChunk toyParse capZero
        (serverProcessChunk toyParse capZero [] (utf8LossyDecode [0xC3])).2
        (utf8LossyDecode [0xA9])).2 = [repl, repl] ∧
    utf8LossyDecode [0xC3, 0xA9] = ['é'] ∧
    ([repl, repl] : List Char) ≠ ['é'] := by decide

/-- Claim C2 (amended): for every finite sequence of single-line non-blank
frames, encoding each frame followed by one newline and decoding the
concatenated bytes through the per-chunk pipeline reconstructs the
original frame sequence with an empty final buffer, for every way of
splitting the byte stream into delivery chunks whose boundaries fall on
UTF-8 character boundaries; the second conjunct states that the chunks
cover exactly the encoded stream.  Splits inside a multi-byte sequence
corrupt the affected character (see the counterexample). -/
theorem c2_amended_roundtrip (frames charChunks : List (List Char))
    (hf : ∀ f ∈ frames, ('\n') ∉ f ∧ jsBlank f = false)
    (hc : charChunks.flatten = frames.flatMap (fun f => f ++ ['\n'])) :
    decodeStream (charChunks.map utf8Encode) = (frames, []) ∧
    (charChunks.map utf8Encode).flatten = encodeFrames frames := by
  constructor
  · have hmap : (charChunks.map utf8Encode).map utf8LossyDecode = charChunks := by
      rw [List.map_map]
      have : charChunks.map (utf8LossyDecode ∘ utf8Encode) = charChunks.map id := by
        apply List.map_congr_left
        intro a _
        exact utf8_decode_encode a
      rw [this, List.map_id]
    rw [decodeStream, hmap, deliverTextAux_eq charChunks [] (by simp),
      List.nil_append, hc, splitNl_stream '\n' frames (fun f hmem => (hf f hmem).1)]
    rw [show (frames ++ [([] : List Char)]).dropLast = frames from List.dropLast_concat,
      show (frames ++ [([] : List Char)]).getLastD [] = [] by
        rw [getLastD_append_ne _ _ _ (by simp)]; rfl]
    rw [List.filter_eq_self.mpr (fun f hmem => by simp [(hf f hmem).2])]
  · rw [utf8Encode_flatten, hc]
    rfl

theorem c2_witness :
    decodeStream ([['h'], ['i', '\n']].map utf8Encode) = ([['h', 'i']], []) :=
  (c2_amended_roundtrip [['h', 'i']] [['h'], ['i', '\n']] (by decide) (by decide)).1

/-- Claim C2 counterexample: the frame holding the one-character JSON
string with the two-byte character 0xE9, encoded and delivered with the
chunk boundary between the two bytes of that character, decodes to a
different frame (both bytes replaced by U+FFFD): the byte-level
round-trip claim fails for splits inside a multi-byte sequence. -/
theorem c2_counterexample :
    List.flatten [[0x22, 0xC3], [0xA9, 0x22, 0x0A]] =
      encodeFrames [['"', 'é', '"']] ∧
    ('\n') ∉ ['"', 'é', '"'] ∧ jsBlank ['"', 'é', '"'] = false ∧
    decodeStream [[0x22, 0xC3], [0xA9, 0x22, 0x0A]] =
      ([['"', repl, repl, '"']], []) ∧
    decodeStream [[0x22, 0xC3], [0xA9, 0x22, 0x0A]] ≠ ([['"', 'é', '"']], []) := by
  decide

theorem stringMk_inj (l1 l2 : List Char) (h : String.mk l1 = String.mk l2) :
    l1 = l2 := by
  injection h

/-- Decimal reading, the left inverse of natToString used to prove that
distinct counters yield distinct request ids. -/
def stringToNat (l : List Char) : Nat :=
  l.foldl (fun a c => a * 10 + (c.toNat - 48)) 0

theorem digitChar_val (d : Nat) (h : d < 10) : (Nat.digitChar d).toNat - 48 = d := by
  interval_cases d <;> decide

theorem natToStringFuel_acc (f : Nat) :
    ∀ (n : Nat) (acc : List Char),
      natToStringFuel f n acc = natToStringFuel f n [] ++ acc := by
  induction f with
  | zero => intro n acc; rfl
  | succ f ih =>
    intro n acc
    by_cases h : n < 10
    · simp [natToStringFuel, h]
    · rw [show natToStringFuel (f + 1) n acc =
          natToStringFuel f (n / 10) (Nat.digitChar (n % 10) :: acc) by
        simp [natToStringFuel, h],
        show natToStringFuel (f + 1) n [] =
          natToStringFuel f (n / 10) [Nat.digitChar (n % 10)] by
        simp [natToStringFuel, h],
        ih (n / 10) (Nat.digitChar (n % 10) :: acc),
        ih (n / 10) [Nat.digitChar (n % 10)]]
      simp

theorem natToStringFuel_congr :
    ∀ (f1 f2 n : Nat), n ≤ f1 → n ≤ f2 →
      natToStringFuel f1 n [] = natToStringFuel f2 n [] := by
  intro f1
  induction f1 with
  | zero =>
    intro f2 n h1 h2
    have : n = 0 := Nat.le_zero.mp h1
    subst this
    cases f2 <;> rfl
  | succ f ih =>
    intro f2 n h1 h2
    by_cases h : n < 10
    · cases f2 with
      | zero =>
        have : n = 0 := Nat.le_zero.mp h2
        subst this
        rfl
      | succ f2x => simp [natToStringFuel, h]
    · cases f2 with
      | zero => omega
      | succ f2x =>
        rw [show natToStringFuel (f + 1) n [] =
            natToStringFuel f (n / 10) [Nat.digitChar (n % 10)] by
          simp [natToStringFuel, h],
          show natToStringFuel (f2x + 1) n [] =
            natToStringFuel f2x (n / 10) [Nat.digitChar (n % 10)] by
          simp [natToStringFuel, h],
          natToStringFuel_acc f, natToStringFuel_acc f2x,
          ih f2x (n / 10) (by omega) (by omega)]

theorem natToString_lt10 (n : Nat) (h : n < 10) :
    natToString n = [Nat.digitChar n] := by
  cases n with
  | zero => rfl
  | succ m => simp [natToString, natToStringFuel, h]

theorem stringToNat_natToString (n : Nat) :
    stringToNat (natToString n) = n := by
  induction n using Nat.strong_induction_on with
  | _ n ih =>
    by_cases h : n < 10
    · rw [natToString_lt10 n h]
      simp [stringToNat, digitChar_val n h]
    · rcases n with _ | f
      · omega
      · rw [show natToString (f + 1) =
            natToStringFuel f ((f + 1) / 10) [Nat.digitChar ((f + 1) % 10)] by
          simp [natToString, natToStringFuel, h],
          natToStringFuel_acc f,
          natToStringFuel_congr f ((f + 1) / 10) ((f + 1) / 10) (by omega) le_rfl]
        rw [show natToStringFuel ((f + 1) / 10) ((f + 1) / 10) [] =
            natToString ((f + 1) / 10) from rfl]
        rw [stringToNat, List.foldl_append]
        rw [show List.foldl (fun a c => a * 10 + (c.toNat - 48)) 0
            (natToString ((f + 1) / 10)) = stringToNat (natToString ((f + 1) / 10)) from rfl,
          ih ((f + 1) / 10) (by omega)]
        simp only [List.foldl_cons, List.foldl_nil]
        rw [digitChar_val ((f + 1) % 10) (by omega)]
        omega

theorem natToString_inj (m n : Nat) (h : natToString m = natToString n) : m = n := by
  have := stringToNat_natToString m
  rw [h, stringToNat_natToString n] at this
  omega

/-- Does this event fire (resolve or reject) the continuation stored
under the given id? -/
def isFireFor {α : Type} (id : String) : ClientEvent α → Bool
  | ClientEvent.resolved i _ => i == id
  | ClientEvent.rejected i _ => i == id
  | _ => false

/-- Does this event insert the given id into the pending table (a framed
request written under that id)? -/
def isSendFor {α : Type} (id : String) : ClientEvent α → Bool
  | ClientEvent.sentRequest r => r.id == id
  | _ => false

/-- How many events of the trace fire the continuation of this id. -/
def firedCount {α : Type} (id : String) (evs : List (ClientEvent α)) : Nat :=
  evs.countP (isFireFor id)

/-- How many events of the trace insert this id. -/
def sentCount {α : Type} (id : String) (evs : List (ClientEvent α)) : Nat :=
  evs.countP (isSendFor id)

/-- Invariant of the client state together with its emitted event trace:
pending keys are distinct decimal ids bounded by the counter, every sent
id is bounded by the counter, every id is sent at most once, and each
sent id is accounted for exactly once, as still pending or as fired. -/
structure ClientInv {α : Type} (st : IPCClientState α)
    (evs : List (ClientEvent α)) : Prop where
  nodup : st.pending.Nodup
  bounds : ∀ id ∈ st.pending,
    ∃ k, 1 ≤ k ∧ k ≤ st.requestId ∧ id = String.mk (natToString k)
  sentIds : ∀ id, 1 ≤ sentCount id evs →
    ∃ k, 1 ≤ k ∧ k ≤ st.requestId ∧ id = String.mk (natToString k)
  balance : ∀ id, sentCount id evs =
    firedCount id evs + (if id ∈ st.pending then 1 else 0)
  once : ∀ id, sentCount id evs ≤ 1

theorem firedCount_append {α : Type} (id : String) (a b : List (ClientEvent α)) :
    firedCount id (a ++ b) = firedCount id a + firedCount id b := by
  simp [firedCount, List.countP_append]

theorem sentCount_append {α : Type} (id : String) (a b : List (ClientEvent α)) :
    sentCount id (a ++ b) = sentCount id a + sentCount id b := by
  simp [sentCount, List.countP_append]

theorem clientHandleLine_nodup {α : Type}
    (parse : List Char → Option (IPCResponse α)) (pending : List String)
    (line : List Char) (h : pending.Nodup) :
    (clientHandleLine parse pending line).1.Nodup := by
  rw [clientHandleLine]
  split
  · exact h
  · rcases parse line with _ | resp
    · exact h
    · simp only
      split
      · exact h.erase resp.id
      · exact h

theorem clientHandleLine_subset {α : Type}
    (parse : List Char → Option (IPCResponse α)) (pending : List String)
    (line : List Char) :
    ∀ id ∈ (clientHandleLine parse pending line).1, id ∈ pending := by
  intro id
  rw [clientHandleLine]
  split
  · exact fun h => h
  · rcases parse line with _ | resp
    · exact fun h => h
    · simp only
      split
      · exact fun h => List.mem_of_mem_erase h
      · exact fun h => h

theorem clientHandleLine_counts {α : Type}
    (parse : List Char → Option (IPCResponse α)) (pending : List String)
    (line : List Char) (hnd : pending.Nodup) (id : String) :
    (if id ∈ pending then 1 else 0) =
      (if id ∈ (clientHandleLine parse pending line).1 then 1 else 0) +
        firedCount id (clientHandleLine parse pending line).2 ∧
    sentCount id (clientHandleLine parse pending line).2 = 0 := by
  by_cases hbl : jsBlank line = true
  · simp [clientHandleLine, hbl, firedCount, sentCount]
  · rcases hp : parse line with _ | resp
    · simp [clientHandleLine, hbl, hp, firedCount, sentCount, isFireFor,
        isSendFor, List.countP_cons]
    · by_cases hmem : resp.id ∈ pending
      · by_cases hid : id = resp.id
        · subst hid
          have h1 : resp.id ∉ pending.erase resp.id := fun hx =>
            ((hnd.mem_erase_iff).mp hx).1 rfl
          rcases hresp : resp.error with _ | e <;>
            simp [clientHandleLine, hbl, hp, hmem, hresp, h1, firedCount,
              sentCount, isFireFor, isSendFor, List.countP_cons]
        · have h2 : id ∈ pending.erase resp.id ↔ id ∈ pending :=
            List.mem_erase_of_ne hid
          have hbeq : (resp.id == id) = false := by
            simp only [beq_eq_false_iff_ne, ne_eq]
            exact fun hx => hid hx.symm
          rcases hresp : resp.error with _ | e <;>
            by_cases hmem2 : id ∈ pending <;>
            simp [clientHandleLine, hbl, hp, hmem, hresp, h2, hmem2, hbeq,
              firedCount, sentCount, isFireFor, isSendFor, List.countP_cons]
      · simp [clientHandleLine, hbl, hp, hmem, firedCount, sentCount]

theorem sentCount_single_sent {α : Type} (id : String) (r : IPCRequest α) :
    sentCount id [ClientEvent.sentRequest r] = if r.id = id then 1 else 0 := by
  by_cases h : r.id = id <;> simp [sentCount, List.countP_cons, isSendFor, h]

theorem firedCount_single_sent {α : Type} (id : String) (r : IPCRequest α) :
    firedCount id [ClientEvent.sentRequest r] = 0 := by
  simp [firedCount, List.countP_cons, isFireFor]

theorem clientLoop_shape {α : Type} (parse : List Char → Option (IPCResponse α)) :
    ∀ (ls : List (List Char)) (pending : List String), pending.Nodup →
      (clientLoop parse pending ls).1.Nodup ∧
      (∀ id ∈ (clientLoop parse pending ls).1, id ∈ pending) ∧
      (∀ id, (if id ∈ pending then 1 else 0) =
        (if id ∈ (clientLoop parse pending ls).1 then 1 else 0) +
          firedCount id (clientLoop parse pending ls).2) ∧
      (∀ id, sentCount id (clientLoop parse pending ls).2 = 0) := by
  intro ls
  induction ls with
  | nil =>
    intro pending h
    simp only [clientLoop]
    exact ⟨h, fun id hx => hx, fun id => by simp [firedCount],
      fun id => by simp [sentCount]⟩
  | cons l ls ih =>
    intro pending h
    have hnod := clientHandleLine_nodup parse pending l h
    obtain ⟨ih1, ih2, ih3, ih4⟩ := ih (clientHandleLine parse pending l).1 hnod
    simp only [clientLoop]
    refine ⟨ih1, fun id hx => clientHandleLine_subset parse pending l id (ih2 id hx),
      fun id => ?_, fun id => ?_⟩
    · have hc := (clientHandleLine_counts parse pending l h id).1
      rw [firedCount_append]
      have hc2 := ih3 id
      omega
    · rw [sentCount_append, ih4 id, (clientHandleLine_counts parse pending l h id).2]

theorem rejectAll_fired {α : Type} :
    ∀ (pending : List String) (id : String), pending.Nodup →
      firedCount id (rejectAllLoop (α := α) pending) =
        if id ∈ pending then 1 else 0 := by
  intro pending
  induction pending with
  | nil => intro id h; simp [rejectAllLoop, firedCount]
  | cons p ps ih =>
    intro id h
    have hih := ih id (List.Nodup.of_cons h)
    have hcons : firedCount id (rejectAllLoop (α := α) (p :: ps)) =
        firedCount id (rejectAllLoop (α := α) ps) +
          (if (p == id) = true then 1 else 0) := by
      simp [rejectAllLoop, firedCount, List.countP_cons, isFireFor]
    by_cases hid : id = p
    · have hnm : p ∉ ps := (List.nodup_cons.mp h).1
      have hnm2 : id ∉ ps := by rw [hid]; exact hnm
      have hbeq : (p == id) = true := by simp [hid.symm]
      rw [hcons, hih, if_neg hnm2, hbeq]
      simp [hid]
    · have hbeq : (p == id) = false := by
        simp only [beq_eq_false_iff_ne, ne_eq]
        exact fun hx => hid hx.symm
      rw [hcons, hih, hbeq]
      simp [List.mem_cons, hid]

theorem rejectAll_sent {α : Type} (pending : List String) (id : String) :
    sentCount id (rejectAllLoop (α := α) pending) = 0 := by
  induction pending with
  | nil => simp [rejectAllLoop, sentCount]
  | cons p ps ih => simpa [rejectAllLoop, sentCount, List.countP_cons, isSendFor] using ih

theorem rejectAll_mem {α : Type} :
    ∀ (pending : List String), ∀ id ∈ pending,
      ClientEvent.rejected id "Connection closed" ∈ rejectAllLoop (α := α) pending := by
  intro pending
  induction pending with
  | nil => intro id hid; simp at hid
  | cons p ps ih =>
    intro id hid
    rcases List.mem_cons.mp hid with rfl | hid
    · exact List.mem_cons_self _ _
    · exact List.mem_cons_of_mem _ (ih id hid)

theorem clientStep_inv {α : Type} (parse : List Char → Option (IPCResponse α))
    (st : IPCClientState α) (evs : List (ClientEvent α)) (op : ClientOp α)
    (h : ClientInv st evs) :
    ClientInv (clientStep parse st op).1 (evs ++ (clientStep parse st op).2) := by
  cases op with
  | request m p =>
    by_cases hc : st.connected = false
    · have hstep : clientStep parse st (ClientOp.request m p) = (st, []) := by
        simp [clientStep, clientRequest, hc]
      rw [hstep, List.append_nil]
      exact h
    · have hfresh : String.mk (natToString (st.requestId + 1)) ∉ st.pending := by
        intro hmem
        obtain ⟨k, hk1, hk2, hk3⟩ := h.bounds _ hmem
        have heq := natToString_inj _ _ (stringMk_inj _ _ hk3)
        omega
      have hfreshSent : sentCount (String.mk (natToString (st.requestId + 1))) evs = 0 := by
        by_contra hpos
        obtain ⟨k, hk1, hk2, hk3⟩ :=
          h.sentIds _ (Nat.one_le_iff_ne_zero.mpr hpos)
        have heq := natToString_inj _ _ (stringMk_inj _ _ hk3)
        omega
      have hstep : clientStep parse st (ClientOp.request m p) =
          ({ st with
              requestId := st.requestId + 1
              pending := st.pending ++ [String.mk (natToString (st.requestId + 1))] },
            [ClientEvent.sentRequest
              ⟨String.mk (natToString (st.requestId + 1)), m, p⟩]) := by
        simp [clientStep, clientRequest, hc, mapSet, hfresh]
      rw [hstep]
      refine ⟨?_, ?_, ?_, ?_, ?_⟩ <;> dsimp only
      · exact List.nodup_append.mpr ⟨h.nodup, List.nodup_singleton _,
          fun a ha hb => hfresh ((List.mem_singleton.mp hb) ▸ ha)⟩
      · intro id hid
        rcases List.mem_append.mp hid with hid | hid
        · obtain ⟨k, hk1, hk2, hk3⟩ := h.bounds id hid
          exact ⟨k, hk1, by omega, hk3⟩
        · exact ⟨st.requestId + 1, by omega, le_rfl, List.mem_singleton.mp hid⟩
      · intro id hpos
        rw [sentCount_append, sentCount_single_sent] at hpos
        by_cases hid : String.mk (natToString (st.requestId + 1)) = id
        · exact ⟨st.requestId + 1, by omega, le_rfl, hid.symm⟩
        · rw [if_neg hid] at hpos
          obtain ⟨k, hk1, hk2, hk3⟩ := h.sentIds id (by omega)
          exact ⟨k, hk1, by omega, hk3⟩
      · intro id
        rw [sentCount_append, firedCount_append, sentCount_single_sent,
          firedCount_single_sent]
        have hmem : id ∈ st.pending ++ [String.mk (natToString (st.requestId + 1))] ↔
            id ∈ st.pending ∨ id = String.mk (natToString (st.requestId + 1)) := by
          simp
        by_cases hid : String.mk (natToString (st.requestId + 1)) = id
        · subst hid
          have hb := h.balance (String.mk (natToString (st.requestId + 1)))
          rw [hfreshSent] at hb
          have hf0 : firedCount (String.mk (natToString (st.requestId + 1))) evs = 0 := by
            omega
          rw [hfreshSent, hf0, if_pos (hmem.mpr (Or.inr rfl)), if_pos rfl]
        · have hb := h.balance id
          rw [if_neg hid]
          have hmem2 : (id ∈ st.pending ++ [String.mk (natToString (st.requestId + 1))]) ↔
              id ∈ st.pending := by
            rw [hmem]
            constructor
            · rintro (hx | hx)
              · exact hx
              · exact absurd hx.symm hid
            · exact Or.inl
          by_cases hp : id ∈ st.pending
          · rw [if_pos (hmem2.mpr hp)]
            rw [if_pos hp] at hb
            omega
          · rw [if_neg (fun hx => hp (hmem2.mp hx))]
            rw [if_neg hp] at hb
            omega
      · intro id
        rw [sentCount_append, sentCount_single_sent]
        by_cases hid : String.mk (natToString (st.requestId + 1)) = id
        · subst hid
          rw [hfreshSent, if_pos rfl]
        · rw [if_neg hid]
          have := h.once id
          omega
  | data c =>
    obtain ⟨l1, l2, l3, l4⟩ := clientLoop_shape parse
      (completeLines (jsSplit '\n' (st.buffer ++ c))) st.pending h.nodup
    have hstep : clientStep parse st (ClientOp.data c) =
        ({ st with
            buffer := popBuffer (jsSplit '\n' (st.buffer ++ c))
            pending := (clientLoop parse st.pending
              (completeLines (jsSplit '\n' (st.buffer ++ c)))).1 },
          (clientLoop parse st.pending
            (completeLines (jsSplit '\n' (st.buffer ++ c)))).2) := by
      simp [clientStep, clientProcessData]
    rw [hstep]
    refine ⟨?_, ?_, ?_, ?_, ?_⟩ <;> dsimp only
    · exact l1
    · intro id hid
      exact h.bounds id (l2 id hid)
    · intro id hpos
      rw [sentCount_append, l4 id] at hpos
      exact h.sentIds id (by omega)
    · intro id
      rw [sentCount_append, firedCount_append, l4 id]
      have hb := h.balance id
      have hl := l3 id
      omega
    · intro id
      rw [sentCount_append, l4 id]
      have := h.once id
      omega
  | close =>
    have hstep : clientStep parse st ClientOp.close =
        ({ st with pending := [] }, rejectAllLoop st.pending) := by
      simp [clientStep, clientOnClose]
    rw [hstep]
    refine ⟨?_, ?_, ?_, ?_, ?_⟩ <;> dsimp only
    · exact List.nodup_nil
    · intro id hid
      simp at hid
    · intro id hpos
      rw [sentCount_append, rejectAll_sent] at hpos
      exact h.sentIds id (by omega)
    · intro id
      rw [sentCount_append, firedCount_append, rejectAll_sent,
        rejectAll_fired st.pending id h.nodup]
      have hb := h.balance id
      simp [hb]
    · intro id
      rw [sentCount_append, rejectAll_sent]
      have := h.once id
      omega

theorem clientRun_inv {α : Type} (parse : List Char → Option (IPCResponse α)) :
    ∀ (ops : List (ClientOp α)) (st : IPCClientState α) (evs : List (ClientEvent α)),
      ClientInv st evs →
      ClientInv (clientRun parse st ops).1 (evs ++ (clientRun parse st ops).2) := by
  intro ops
  induction ops with
  | nil =>
    intro st evs h
    simpa [clientRun] using h
  | cons op ops ih =>
    intro st evs h
    have h2 := ih (clientStep parse st op).1 (evs ++ (clientStep parse st op).2)
      (clientStep_inv parse st evs op h)
    simp only [clientRun]
    rw [← List.append_assoc]
    exact h2

theorem clientRun_append {α : Type} (parse : List Char → Option (IPCResponse α)) :
    ∀ (a b : List (ClientOp α)) (st : IPCClientState α),
      clientRun parse st (a ++ b) =
        ((clientRun parse (clientRun parse st a).1 b).1,
          (clientRun parse st a).2 ++ (clientRun parse (clientRun parse st a).1 b).2) := by
  intro a
  induction a with
  | nil => intro b st; simp [clientRun]
  | cons op a ih => intro b st; simp [clientRun, ih]

theorem clientInit_inv {α : Type} : ClientInv (clientInit : IPCClientState α) [] := by
  refine ⟨?_, ?_, ?_, ?_, ?_⟩
  · exact List.nodup_nil
  · intro id hid; simp [clientInit] at hid
  · intro id hpos; simp [sentCount] at hpos
  · intro id; simp [sentCount, firedCount, clientInit]
  · intro id; simp [sentCount]

/-- Claim C6: every id the Caller inserts into the pending table is
removed and fired exactly once, by the matching Response or by connection
closure: over any event sequence ending in the close event, the final
table is empty, each sent id fires exactly as often as it was sent and is
sent at most once, and every id still pending when the close fires is
rejected with the Connection closed error. -/
theorem c6_pending_ids_lifecycle {α : Type}
    (parse : List Char → Option (IPCResponse α)) (ops : List (ClientOp α)) :
    (clientRun parse (clientInit : IPCClientState α)
        (ops ++ [ClientOp.close])).1.pending = [] ∧
    (∀ id, sentCount id
        (clientRun parse (clientInit : IPCClientState α) (ops ++ [ClientOp.close])).2 =
      firedCount id
        (clientRun parse (clientInit : IPCClientState α) (ops ++ [ClientOp.close])).2) ∧
    (∀ id, sentCount id
        (clientRun parse (clientInit : IPCClientState α) (ops ++ [ClientOp.close])).2 ≤ 1) ∧
    (∀ id ∈ (clientRun parse (clientInit : IPCClientState α) ops).1.pending,
      ClientEvent.rejected id "Connection closed" ∈
        (clientRun parse (clientInit : IPCClientState α) (ops ++ [ClientOp.close])).2) := by
  have hinv := clientRun_inv parse (ops ++ [ClientOp.close]) clientInit [] clientInit_inv
  rw [List.nil_append] at hinv
  have happ := clientRun_append parse ops [ClientOp.close] clientInit
  have hfin1 : (clientRun parse (clientInit : IPCClientState α)
      (ops ++ [ClientOp.close])).1.pending = [] := by
    rw [happ]
    simp [clientRun, clientStep, clientOnClose]
  refine ⟨hfin1, fun id => ?_, fun id => hinv.once id, fun id hid => ?_⟩
  · have hb := hinv.balance id
    rw [hfin1] at hb
    simpa using hb
  · rw [happ]
    refine List.mem_append.mpr (Or.inr ?_)
    have hev : (clientRun parse
        (clientRun parse (clientInit : IPCClientState α) ops).1 [ClientOp.close]).2 =
        rejectAllLoop (clientRun parse (clientInit : IPCClientState α) ops).1.pending := by
      simp [clientRun, clientStep, clientOnClose]
    rw [hev]
    exact rejectAll_mem _ id hid

theorem c6_witness :
    ClientEvent.rejected "1" "Connection closed" ∈
      (clientRun respParseA (clientInit : IPCClientState Unit)
        ([ClientOp.request "readFile" ()] ++ [ClientOp.close])).2 :=
  (c6_pending_ids_lifecycle respParseA [ClientOp.request "readFile" ()]).2.2.2 "1"
    (by decide)

/-- Claim C7 counterexample: two requests delivered in one data event are
serialised by the per-chunk loop, which awaits the handler of the first
before even decoding the second: after the data event carrying the lines
a and b, only request 1 has been dispatched, the frame of request 2 sits
queued behind the awaited handler, and request 2 is dispatched exactly
when the handler of request 1 settles.  Handler latency on one request
therefore does block decoding and dispatch of another. -/
theorem c7_counterexample :
    srvRun toyParse srvInit [SrvOp.data ['a', '\n', 'b', '\n']] =
      (⟨[], [some ⟨⟨"1", "methodA", ()⟩, [['b']]⟩]⟩, [SrvEvent.dispatched "1"]) ∧
    (SrvEvent.dispatched "2") ∉
      (srvRun toyParse srvInit [SrvOp.data ['a', '\n', 'b', '\n']]).2 ∧
    srvStep toyParse
        (srvRun toyParse srvInit [SrvOp.data ['a', '\n', 'b', '\n']]).1
        (SrvOp.complete 0 (Except.ok ())) =
      (⟨[], [some ⟨⟨"2", "methodB", ()⟩, []⟩]⟩,
        [SrvEvent.wrote ⟨"1", some (), none⟩, SrvEvent.dispatched "2"]) := by
  decide

/-- Claim C7 (amended): requests that arrive in separate data events run
concurrently, and when the handler of the later request settles first its
response is written first (concrete trace: dispatch 1, dispatch 2, write
response 2, write response 1); a response written on completion carries
the id of exactly the request whose handler settled, and the caller
removes and fires exactly the continuation pending under that id, never
another.  Requests that arrive in the same data event are serialised (see
the counterexample). -/
theorem c7_out_of_order {α : Type}
    (parse : List Char → Option (IPCResponse α))
    (pending : List String) (resp : IPCResponse α) (line : List Char)
    (hp : parse line = some resp) (hnb : jsBlank line = false)
    (hmem : resp.id ∈ pending)
    (parseS : List Char → Option (IPCRequest α))
    (st : AsyncServerState α) (i : Nat) (outcome : Except String α)
    (task : ServerTask α) (htask : st.tasks.getD i none = some task) :
    (srvRun toyParse srvInit
        [SrvOp.data ['a', '\n'], SrvOp.data ['b', '\n'],
          SrvOp.complete 1 (Except.ok ()), SrvOp.complete 0 (Except.ok ())] =
      (⟨[], [none, none]⟩,
        [SrvEvent.dispatched "1", SrvEvent.dispatched "2",
          SrvEvent.wrote ⟨"2", some (), none⟩,
          SrvEvent.wrote ⟨"1", some (), none⟩])) ∧
    ((srvStep parseS st (SrvOp.complete i outcome)).2 =
        SrvEvent.wrote (mkResponse task.waiting outcome) ::
          (taskAdvance parseS task.rest).1 ∧
      (mkResponse task.waiting outcome).id = task.waiting.id) ∧
    ((clientHandleLine parse pending line).1 = pending.erase resp.id ∧
      ∀ e ∈ (clientHandleLine parse pending line).2, isFireFor resp.id e = true) := by
  refine ⟨by decide, ⟨?_, ?_⟩, ⟨?_, ?_⟩⟩
  · simp only [srvStep]
    rw [htask]
  · rcases outcome with r | msg <;> simp [mkResponse]
  · simp [clientHandleLine, hp, hnb, hmem]
  · intro e he
    rcases hresp : resp.error with _ | err <;>
      simp [clientHandleLine, hp, hnb, hmem, hresp] at he <;>
      simp [he, isFireFor]

theorem c7_witness :
    (clientHandleLine respParseA ["1", "2"] ['r']).1 =
      (["1", "2"] : List String).erase "1" :=
  ((c7_out_of_order respParseA ["1", "2"] ⟨"1", some (), none⟩ ['r'] rfl rfl
      (by decide) toyParse ⟨[], [some ⟨⟨"1", "methodA", ()⟩, []⟩]⟩ 0 (Except.ok ())
      ⟨⟨"1", "methodA", ()⟩, []⟩ rfl).2.2).1
